import Mathlib

/-!
# Verification of the rainfuck brainfuck interpreter (src/main.rs)

Shallow embedding of the parser (`Program::parse`) and the execution engine
(`Program::step`) of the rainfuck interpreter, together with theorems settling
the specification claims.

Modelling conventions:
* `u8` cell values are `Nat`s kept below 256 by the wrapping arithmetic
  (`wrapping_add 1` is `(v + 1) % 256`, `wrapping_sub 1` is `(v + 255) % 256`).
* `Vec<Cmd>` / `Vec<u8>` are Lean `List`s; `Vec::resize(len + 1024, 0)` is
  appending `List.replicate 1024 0`.
* The `HashMap<usize, usize>` jump table is an association list with
  newest-first lookup (`lookupPos`); `insert` conses, and lookup takes the
  first hit, which matches overwrite semantics (keys are in fact distinct).
* Rust panics (out-of-bounds `Vec` indexing in `cell`/`set_cell`/direct
  indexing, and a missing `HashMap` key in `self.loops[&self.pc]`) are the
  explicit result `StepResult.crash`.
* The caller-supplied I/O channels of `step` are modelled per step by two
  oracles: `ReadResult` (a successful byte, end-of-stream, or a genuine read
  error) and `WriteResult` (success or a write error).  `io::Error` returns
  are `StepResult.ioError`.
* `anyhow!("unmatched ]")` / `anyhow!("unmatched [")` are the two
  constructors of `ParseError`.
-/

/-- The eight brainfuck commands, `enum Cmd` in the source. -/
inductive Cmd where
  | Right
  | Left
  | Inc
  | Dec
  | Out
  | In
  | Start
  | End
  deriving DecidableEq

/-- `Cmd::from_byte`: classify one source byte (given as a `Nat` code in
0..256) into a command, or `none` for a comment byte. -/
def Cmd.from_byte (b : Nat) : Option Cmd :=
  if b = 62 then some .Right
  else if b = 60 then some .Left
  else if b = 43 then some .Inc
  else if b = 45 then some .Dec
  else if b = 46 then some .Out
  else if b = 44 then some .In
  else if b = 91 then some .Start
  else if b = 93 then some .End
  else none

/-- The two parse errors, `anyhow!("unmatched ]")` and
`anyhow!("unmatched [")` in the source. -/
inductive ParseError where
  | unmatchedClose
  | unmatchedOpen
  deriving DecidableEq

/-- First-hit lookup in the association-list model of the
`HashMap<usize, usize>` jump table. -/
def lookupPos (a : Nat) : List (Nat × Nat) → Option Nat
  | [] => none
  | (k, b) :: es => if a = k then some b else lookupPos a es

/-- `struct Program`: instruction sequence, tape, program counter, tape
pointer, and jump table. -/
structure Program where
  cmds : List Cmd
  data : List Nat
  pc : Nat
  ptr : Nat
  loops : List (Nat × Nat)
  deriving DecidableEq

/-- The loop of `Program::parse` over the filtered command sequence:
maintain the stack of pending `[` positions, record both directions of each
match, fail on an unmatched `]` at once and on leftover `[`s at the end.
`i` is the position of the head of `l` in the whole command sequence. -/
def buildLoops : List Cmd → Nat → List Nat → List (Nat × Nat) →
    Except ParseError (List (Nat × Nat))
  | [], _, stack, loops =>
    if stack.isEmpty then .ok loops else .error .unmatchedOpen
  | c :: rest, i, stack, loops =>
    if c = Cmd.Start then
      buildLoops rest (i + 1) (i :: stack) loops
    else if c = Cmd.End then
      match stack with
      | [] => .error .unmatchedClose
      | start :: stack' =>
        buildLoops rest (i + 1) stack' ((i, start) :: (start, i) :: loops)
    else
      buildLoops rest (i + 1) stack loops

/-- `Program::parse`: filter the source bytes into commands, build the jump
table (or fail), and return the initial execution state: tape of 1024 zero
cells, program counter 0, tape pointer 0. -/
def Program.parse (code : List Nat) : Except ParseError Program :=
  match buildLoops (code.filterMap Cmd.from_byte) 0 [] [] with
  | .error e => .error e
  | .ok loops =>
    .ok { cmds := code.filterMap Cmd.from_byte
          data := List.replicate 1024 0
          pc := 0
          ptr := 0
          loops := loops }

/-- Per-step behaviour of the input channel: `read_exact` on one byte either
succeeds with a byte, hits end-of-stream (`ErrorKind::UnexpectedEof`), or
fails with another error. -/
inductive ReadResult where
  | ok (b : Nat)
  | eof
  | err
  deriving DecidableEq

/-- Per-step behaviour of the output channel: `write_all` succeeds or fails. -/
inductive WriteResult where
  | ok
  | err
  deriving DecidableEq

/-- Result of one `step` call: `cont p` is `Ok(true)` with updated state `p`,
`halt p` is `Ok(false)` (state left as `p`), `ioError p` is `Err(_)` (state
left as `p`), and `crash` is a Rust panic (out-of-bounds indexing or missing
jump-table key). -/
inductive StepResult where
  | cont (p : Program)
  | halt (p : Program)
  | ioError (p : Program)
  | crash
  deriving DecidableEq

/-- The arms of the `match self.cmds[self.pc]` in `Program::step`, one Lean
branch per Rust arm; the trailing `self.pc += 1` of the source is folded into
each non-returning branch. -/
def stepCmd (p : Program) (cin : ReadResult) (cout : WriteResult) :
    Cmd → StepResult
  | .Right =>
    let data :=
      if p.ptr = p.data.length then p.data ++ List.replicate 1024 0
      else p.data
    .cont { p with data := data, ptr := p.ptr + 1, pc := p.pc + 1 }
  | .Left =>
    if p.ptr = 0 then .halt p
    else .cont { p with ptr := p.ptr - 1, pc := p.pc + 1 }
  | .Inc =>
    match p.data[p.ptr]? with
    | none => .crash
    | some v =>
      .cont { p with data := p.data.set p.ptr ((v + 1) % 256),
                     pc := p.pc + 1 }
  | .Dec =>
    match p.data[p.ptr]? with
    | none => .crash
    | some v =>
      .cont { p with data := p.data.set p.ptr ((v + 255) % 256),
                     pc := p.pc + 1 }
  | .Out =>
    match p.data[p.ptr]? with
    | none => .crash
    | some _ =>
      match cout with
      | .ok => .cont { p with pc := p.pc + 1 }
      | .err => .ioError p
  | .In =>
    match cin with
    | .ok b =>
      if p.ptr < p.data.length then
        .cont { p with data := p.data.set p.ptr b, pc := p.pc + 1 }
      else .crash
    | .eof => .cont { p with pc := p.pc + 1 }
    | .err => .ioError p
  | .Start =>
    match p.data[p.ptr]? with
    | none => .crash
    | some v =>
      if v = 0 then
        match lookupPos p.pc p.loops with
        | none => .crash
        | some t => .cont { p with pc := t + 1 }
      else .cont { p with pc := p.pc + 1 }
  | .End =>
    match p.data[p.ptr]? with
    | none => .crash
    | some v =>
      if v ≠ 0 then
        match lookupPos p.pc p.loops with
        | none => .crash
        | some t => .cont { p with pc := t + 1 }
      else .cont { p with pc := p.pc + 1 }

/-- `Program::step`: if the program counter is past the end of the
instruction sequence return `Ok(false)` (`halt`), otherwise execute the
instruction at `pc` against the tape, consulting the per-step I/O oracles
`cin` and `cout`. -/
def Program.step (p : Program) (cin : ReadResult) (cout : WriteResult) :
    StepResult :=
  match p.cmds[p.pc]? with
  | none => .halt p
  | some c => stepCmd p cin cout c

/-- One step with inert I/O oracles (end-of-stream input, succeeding output);
adequate for programs whose executed instructions do no I/O. -/
def Program.stepPure (p : Program) : StepResult :=
  p.step ReadResult.eof WriteResult.ok

/-- Run `n` pure steps, stopping early on halt, I/O error, or crash. -/
def runFor (p : Program) : Nat → StepResult
  | 0 => .cont p
  | n + 1 =>
    match p.stepPure with
    | .cont p' => runFor p' n
    | r => r

/-- Source bytes of 1024 `>` characters followed by one `+`. -/
def grow_src : List Nat := List.replicate 1024 62 ++ [43]

/-- The command sequence `grow_src` parses to. -/
def grow_cmds : List Cmd := List.replicate 1024 Cmd.Right ++ [Cmd.Inc]

/-- The execution state of `grow_cmds` after `k` pure steps (for `k ≤ 1024`):
the first `k` `>` commands have executed, so `pc = ptr = k` and the tape is
still the initial 1024 zero cells. -/
def growState (k : Nat) : Program :=
  { cmds := grow_cmds
    data := List.replicate 1024 0
    pc := k
    ptr := k
    loops := [] }

/-- The state `Program.parse` produces for the source `"[]"`. -/
def sampleLoopProg : Program :=
  { cmds := [Cmd.Start, Cmd.End]
    data := List.replicate 1024 0
    pc := 0
    ptr := 0
    loops := [(1, 0), (0, 1)] }

/-- A state about to execute `<` with the tape pointer at 0. -/
def leftProg : Program :=
  { cmds := [Cmd.Left], data := [5], pc := 0, ptr := 0, loops := [] }

/-- A state about to execute `>` with the pointer equal to the tape length. -/
def rightProg : Program :=
  { cmds := [Cmd.Right], data := [], pc := 0, ptr := 0, loops := [] }

/-- A state about to execute `[` over a zero cell, with jump entry 0 ↦ 7. -/
def startZeroProg : Program :=
  { cmds := [Cmd.Start], data := [0], pc := 0, ptr := 0, loops := [(0, 7)] }

/-- A state about to execute `[` over a nonzero cell. -/
def startNonzeroProg : Program :=
  { cmds := [Cmd.Start], data := [3], pc := 0, ptr := 0, loops := [(0, 7)] }

/-- A state about to execute `]` over a nonzero cell, with jump entry 0 ↦ 5. -/
def endNonzeroProg : Program :=
  { cmds := [Cmd.End], data := [3], pc := 0, ptr := 0, loops := [(0, 5)] }

/-- A state about to execute `]` over a zero cell. -/
def endZeroProg : Program :=
  { cmds := [Cmd.End], data := [0], pc := 0, ptr := 0, loops := [(0, 5)] }

/-- A state about to execute `+` over a cell holding 255. -/
def incWrapProg : Program :=
  { cmds := [Cmd.Inc], data := [255], pc := 0, ptr := 0, loops := [] }

/-- A state about to execute `-` over a cell holding 0. -/
def decWrapProg : Program :=
  { cmds := [Cmd.Dec], data := [0], pc := 0, ptr := 0, loops := [] }

/-- A state about to execute `,` (input). -/
def inProg : Program :=
  { cmds := [Cmd.In], data := [9], pc := 0, ptr := 0, loops := [] }

/-- A state about to execute `.` (output). -/
def outProg : Program :=
  { cmds := [Cmd.Out], data := [7], pc := 0, ptr := 0, loops := [] }

/-- A state with an empty instruction sequence. -/
def haltProg : Program :=
  { cmds := [], data := [0], pc := 0, ptr := 0, loops := [] }

/-- Invariant maintained by `buildLoops` while it scans the command sequence
`cmds`: positions `< i` have been processed, `st` is the stack of pending `[`
positions and `L` the jump table built so far.  The fields say: `L` is
symmetric; its keys are processed positions; the stack holds distinct
processed positions of `[` commands that are not yet keys; every processed
`[` position is pending or a key, and every processed `]` position is a key;
and every pair of `L` joins a `[` position with a `]` position. -/
structure LoopInv (cmds : List Cmd) (i : Nat) (st : List Nat)
    (L : List (Nat × Nat)) : Prop where
  symm : ∀ a b, lookupPos a L = some b → lookupPos b L = some a
  keysLt : ∀ a b, lookupPos a L = some b → a < i
  stLt : ∀ s, s ∈ st → s < i
  stNodup : st.Nodup
  stNotKey : ∀ s, s ∈ st → lookupPos s L = none
  covStart : ∀ k, k < i → cmds[k]? = some Cmd.Start →
    (k ∈ st ∨ (lookupPos k L).isSome)
  covEnd : ∀ k, k < i → cmds[k]? = some Cmd.End → (lookupPos k L).isSome
  pairLoop : ∀ a b, lookupPos a L = some b →
    (cmds[a]? = some Cmd.Start ∧ cmds[b]? = some Cmd.End) ∨
    (cmds[a]? = some Cmd.End ∧ cmds[b]? = some Cmd.Start)
  stStart : ∀ s, s ∈ st → cmds[s]? = some Cmd.Start

set_option maxRecDepth 10000

/-- Unfolding lemma: when the command lookup at the counter succeeds, `step`
dispatches to the corresponding `match` arm. -/
theorem step_eq_stepCmd {p : Program} {c : Cmd} (cin : ReadResult)
    (cout : WriteResult) (hc : p.cmds[p.pc]? = some c) :
    p.step cin cout = stepCmd p cin cout c := by
  unfold Program.step
  rw [hc]

/-- Unfolding lemma: when the counter is past the end of the instruction
sequence, `step` is `Ok(false)` with the state unchanged. -/
theorem step_past_end {p : Program} (cin : ReadResult) (cout : WriteResult)
    (hc : p.cmds[p.pc]? = none) : p.step cin cout = StepResult.halt p := by
  unfold Program.step
  rw [hc]

/-- C3.  Executing `<` with the tape pointer at 0 halts at once: the result is
`halt` — the same constructor `step` returns when the counter runs off the end
of the instruction sequence, so the caller cannot distinguish this boundary
halt from normal termination — and the state is returned unchanged: the
counter is not advanced and no tape cell or index is mutated. -/
theorem left_at_zero_halts (p : Program) (cin : ReadResult) (cout : WriteResult)
    (hc : p.cmds[p.pc]? = some Cmd.Left) (hp : p.ptr = 0) :
    p.step cin cout = StepResult.halt p := by
  rw [step_eq_stepCmd cin cout hc]
  simp [stepCmd, hp]

/-- Witness for C3: the concrete state `leftProg` satisfies the hypotheses and
halts unchanged. -/
theorem left_at_zero_halts_witness :
    leftProg.step ReadResult.eof WriteResult.ok = StepResult.halt leftProg :=
  left_at_zero_halts leftProg ReadResult.eof WriteResult.ok rfl rfl

/-- C8.  `+` and `-` act on the current cell with 8-bit wraparound and never
fail: when the cell holds `v`, `+` stores `(v + 1) % 256` and `-` stores
`(v + 255) % 256` (which is `v - 1` modulo 256: for `v = 0` it is 255, and for
`0 < v < 256` it is `v - 1`), each continuing to the next instruction. -/
theorem inc_dec_wrap (p : Program) (cin : ReadResult) (cout : WriteResult)
    (v : Nat) :
    (p.cmds[p.pc]? = some Cmd.Inc → p.data[p.ptr]? = some v →
      p.step cin cout =
        StepResult.cont
          { p with data := p.data.set p.ptr ((v + 1) % 256),
                   pc := p.pc + 1 }) ∧
    (p.cmds[p.pc]? = some Cmd.Dec → p.data[p.ptr]? = some v →
      p.step cin cout =
        StepResult.cont
          { p with data := p.data.set p.ptr ((v + 255) % 256),
                   pc := p.pc + 1 }) := by
  constructor
  · intro hc hd
    rw [step_eq_stepCmd cin cout hc]
    simp [stepCmd, hd]
  · intro hc hd
    rw [step_eq_stepCmd cin cout hc]
    simp [stepCmd, hd]

/-- Witness for C8: incrementing a cell holding 255 yields 0, and decrementing
a cell holding 0 yields 255, both without error. -/
theorem inc_dec_wrap_witness :
    incWrapProg.step ReadResult.eof WriteResult.ok =
      StepResult.cont { incWrapProg with data := [0], pc := 1 } ∧
    decWrapProg.step ReadResult.eof WriteResult.ok =
      StepResult.cont { decWrapProg with data := [255], pc := 1 } :=
  ⟨(inc_dec_wrap incWrapProg ReadResult.eof WriteResult.ok 255).1 rfl rfl,
   (inc_dec_wrap decWrapProg ReadResult.eof WriteResult.ok 0).2 rfl rfl⟩

/-- C9.  A source whose bytes are all non-instruction bytes parses
successfully to an empty instruction sequence with the initial 1024-cell zero
tape, and the very first `step` reports normal halt with the state unchanged
(no tape mutation). -/
theorem comment_only_parse_halts (code : List Nat) (cin : ReadResult)
    (cout : WriteResult) (h : ∀ b ∈ code, Cmd.from_byte b = none) :
    ∃ p, Program.parse code = Except.ok p ∧ p.cmds = [] ∧
      p.data = List.replicate 1024 0 ∧ p.step cin cout = StepResult.halt p := by
  have hfm : code.filterMap Cmd.from_byte = [] :=
    List.filterMap_eq_nil_iff.mpr h
  refine ⟨{ cmds := [], data := List.replicate 1024 0, pc := 0, ptr := 0,
            loops := [] }, ?_, rfl, rfl, ?_⟩
  · simp [Program.parse, hfm, buildLoops]
  · exact step_past_end cin cout rfl

/-- Witness for C9: the two-byte source `[10, 65]` (a newline and `A`) has no
instruction bytes; it parses to the empty program and halts at once. -/
theorem comment_only_parse_halts_witness :
    ∃ p, Program.parse [10, 65] = Except.ok p ∧ p.cmds = [] ∧
      p.data = List.replicate 1024 0 ∧
      p.step ReadResult.eof WriteResult.ok = StepResult.halt p :=
  comment_only_parse_halts [10, 65] ReadResult.eof WriteResult.ok (by decide)

/-- C4.  Loop-branch semantics of `step`: `[` over a zero cell jumps to one
past the jump-table target (the matching `]`); `[` over a nonzero cell falls
through to `pc + 1`; `]` over a nonzero cell jumps to one past the jump-table
target (the matching `[`); `]` over a zero cell falls through to `pc + 1`.
In every one of these non-halting branches the assignment `pc := target` (if
any) is followed by the usual increment by exactly 1. -/
theorem loop_branch_semantics (p : Program) (cin : ReadResult)
    (cout : WriteResult) (v t : Nat) :
    (p.cmds[p.pc]? = some Cmd.Start → p.data[p.ptr]? = some 0 →
      lookupPos p.pc p.loops = some t →
      p.step cin cout = StepResult.cont { p with pc := t + 1 }) ∧
    (p.cmds[p.pc]? = some Cmd.Start → p.data[p.ptr]? = some v → v ≠ 0 →
      p.step cin cout = StepResult.cont { p with pc := p.pc + 1 }) ∧
    (p.cmds[p.pc]? = some Cmd.End → p.data[p.ptr]? = some v → v ≠ 0 →
      lookupPos p.pc p.loops = some t →
      p.step cin cout = StepResult.cont { p with pc := t + 1 }) ∧
    (p.cmds[p.pc]? = some Cmd.End → p.data[p.ptr]? = some 0 →
      p.step cin cout = StepResult.cont { p with pc := p.pc + 1 }) := by
  refine ⟨?_, ?_, ?_, ?_⟩
  · intro hc hd hj
    rw [step_eq_stepCmd cin cout hc]
    simp [stepCmd, hd, hj]
  · intro hc hd hv
    rw [step_eq_stepCmd cin cout hc]
    simp [stepCmd, hd, hv]
  · intro hc hd hv hj
    rw [step_eq_stepCmd cin cout hc]
    simp [stepCmd, hd, hv, hj]
  · intro hc hd
    rw [step_eq_stepCmd cin cout hc]
    simp [stepCmd, hd]

/-- Witness for C4: all four loop branches at concrete states. -/
theorem loop_branch_semantics_witness :
    startZeroProg.step ReadResult.eof WriteResult.ok =
      StepResult.cont { startZeroProg with pc := 8 } ∧
    startNonzeroProg.step ReadResult.eof WriteResult.ok =
      StepResult.cont { startNonzeroProg with pc := 1 } ∧
    endNonzeroProg.step ReadResult.eof WriteResult.ok =
      StepResult.cont { endNonzeroProg with pc := 6 } ∧
    endZeroProg.step ReadResult.eof WriteResult.ok =
      StepResult.cont { endZeroProg with pc := 1 } :=
  ⟨(loop_branch_semantics startZeroProg ReadResult.eof WriteResult.ok 0 7).1
      rfl rfl rfl,
   (loop_branch_semantics startNonzeroProg ReadResult.eof WriteResult.ok 3 7).2.1
      rfl rfl (by decide),
   (loop_branch_semantics endNonzeroProg ReadResult.eof WriteResult.ok 3 5).2.2.1
      rfl rfl (by decide) rfl,
   (loop_branch_semantics endZeroProg ReadResult.eof WriteResult.ok 0 5).2.2.2
      rfl rfl⟩

/-- C1 (amended).  Executing `>` with the tape pointer equal to the tape's
current length (one past the last valid index) triggers exactly one chunk
growth: the tape becomes the old tape followed by exactly 1024 zero cells, so
its length increases by exactly 1024 and every newly added cell reads 0; the
pointer and counter then advance by 1. -/
theorem right_at_length_grows (p : Program) (cin : ReadResult)
    (cout : WriteResult) (hc : p.cmds[p.pc]? = some Cmd.Right)
    (hp : p.ptr = p.data.length) :
    p.step cin cout =
      StepResult.cont
        { p with data := p.data ++ List.replicate 1024 0,
                 ptr := p.ptr + 1, pc := p.pc + 1 } ∧
    (p.data ++ List.replicate 1024 0).length = p.data.length + 1024 ∧
    (∀ k, p.data.length ≤ k → k < p.data.length + 1024 →
      (p.data ++ List.replicate 1024 0)[k]? = some 0) := by
  refine ⟨?_, by simp, ?_⟩
  · rw [step_eq_stepCmd cin cout hc]
    simp [stepCmd, hp]
  · intro k h1 h2
    rw [List.getElem?_append_right h1]
    rw [List.getElem?_replicate]
    have : k - p.data.length < 1024 := by omega
    simp [this]

/-- Witness for C1 (amended): a concrete state about to execute `>` with the
pointer equal to the tape length grows the tape by one 1024-zero chunk. -/
theorem right_at_length_grows_witness :
    rightProg.step ReadResult.eof WriteResult.ok =
      StepResult.cont
        { rightProg with data := List.replicate 1024 0, ptr := 1, pc := 1 } :=
  (right_at_length_grows rightProg ReadResult.eof WriteResult.ok rfl rfl).1

/-- C7.  `step` returns `Err` exactly when the instruction is `.` (output)
with an in-bounds cell and the output channel's write fails, or the
instruction is `,` (input) and the input channel fails with an error other
than end-of-stream; and when the input channel reports end-of-stream, `step`
succeeds, leaves the whole tape (hence the current cell's prior value)
unchanged, and continues to the next instruction. -/
theorem step_error_iff (p : Program) (cin : ReadResult) (cout : WriteResult) :
    ((∃ q, p.step cin cout = StepResult.ioError q) ↔
      ((∃ v, p.cmds[p.pc]? = some Cmd.Out ∧ p.data[p.ptr]? = some v ∧
          cout = WriteResult.err) ∨
        (p.cmds[p.pc]? = some Cmd.In ∧ cin = ReadResult.err))) ∧
    (p.cmds[p.pc]? = some Cmd.In → cin = ReadResult.eof →
      p.step cin cout = StepResult.cont { p with pc := p.pc + 1 }) := by
  constructor
  · rcases hc : p.cmds[p.pc]? with _ | c
    · rw [step_past_end cin cout hc]
      simp
    · rw [step_eq_stepCmd cin cout hc]
      cases c <;> cases cin <;> cases cout <;>
        rcases hd : p.data[p.ptr]? with _ | v <;>
        rcases hl : lookupPos p.pc p.loops with _ | t <;>
        simp [stepCmd, hd, hl] <;>
        split_ifs <;> simp_all
  · intro hc hcin
    subst hcin
    rw [step_eq_stepCmd ReadResult.eof cout hc]
    simp [stepCmd]

/-- Witness for C7: `,` at end-of-stream continues with the tape unchanged,
and `.` with a failing output channel reports an I/O error. -/
theorem step_error_iff_witness :
    inProg.step ReadResult.eof WriteResult.ok =
      StepResult.cont { inProg with pc := 1 } ∧
    (∃ q, outProg.step ReadResult.eof WriteResult.err = StepResult.ioError q) :=
  ⟨(step_error_iff inProg ReadResult.eof WriteResult.ok).2 rfl rfl,
   (step_error_iff outProg ReadResult.eof WriteResult.err).1.mpr
      (Or.inl ⟨7, rfl, rfl, rfl⟩)⟩

set_option maxHeartbeats 1600000 in
/-- C10.  Frame conditions of `step`: every invocation that returns a state
(`Ok(true)`, `Ok(false)`, or `Err`) leaves the instruction sequence and the
jump table unchanged and never decreases the tape's length; the tape's length
changes only when the instruction is `>` and the pointer equals the current
length — the only growth trigger — in which case the new tape is the old tape
extended by exactly 1024 zero cells. -/
theorem step_frame (p q : Program) (cin : ReadResult) (cout : WriteResult)
    (h : p.step cin cout = StepResult.cont q ∨
      p.step cin cout = StepResult.halt q ∨
      p.step cin cout = StepResult.ioError q) :
    q.cmds = p.cmds ∧ q.loops = p.loops ∧ p.data.length ≤ q.data.length ∧
      (q.data.length ≠ p.data.length →
        p.cmds[p.pc]? = some Cmd.Right ∧ p.ptr = p.data.length ∧
          q.data = p.data ++ List.replicate 1024 0) := by
  rcases hc : p.cmds[p.pc]? with _ | c
  · rw [step_past_end cin cout hc] at h
    rcases h with h | h | h <;> simp_all
  · rw [step_eq_stepCmd cin cout hc] at h
    cases c <;>
      cases cin <;> cases cout <;>
      rcases hd : p.data[p.ptr]? with _ | v <;>
      rcases hl : lookupPos p.pc p.loops with _ | t <;>
      simp only [stepCmd, hd, hl] at h <;>
      (try split_ifs at h) <;>
      rcases h with h | h | h <;>
      simp_all [-List.reduceReplicate] <;>
      (subst h; simp_all [-List.reduceReplicate])

/-- `filterMap` over a replicated element that maps to `some`. -/
theorem filterMap_replicate_some {f : Nat → Option Cmd} {a : Nat} {c : Cmd}
    (h : f a = some c) :
    ∀ n, (List.replicate n a).filterMap f = List.replicate n c
  | 0 => by simp
  | n + 1 => by
    simp [List.replicate_succ, h, filterMap_replicate_some h n]

/-- `buildLoops` over commands containing no brackets, starting from an empty
stack, succeeds with the table unchanged. -/
theorem buildLoops_no_brackets :
    ∀ l : List Cmd, (∀ c ∈ l, c ≠ Cmd.Start ∧ c ≠ Cmd.End) →
      ∀ i L, buildLoops l i [] L = Except.ok L
  | [], _, i, L => by simp [buildLoops]
  | c :: rest, h, i, L => by
    have hc := h c (List.mem_cons_self c rest)
    have ih := buildLoops_no_brackets rest
      (fun d hd => h d (List.mem_cons_of_mem c hd)) (i + 1) L
    simp [buildLoops, hc.1, hc.2, ih]

/-- `grow_src` parses successfully to the initial state `growState 0`. -/
theorem parse_grow_src : Program.parse grow_src = Except.ok (growState 0) := by
  have h1 : grow_src.filterMap Cmd.from_byte = grow_cmds := by
    unfold grow_src grow_cmds
    rw [List.filterMap_append,
      filterMap_replicate_some (show Cmd.from_byte 62 = some Cmd.Right from rfl)]
    rfl
  have h2 : buildLoops grow_cmds 0 [] [] = Except.ok [] := by
    refine buildLoops_no_brackets grow_cmds (fun c hc => ?_) 0 []
    unfold grow_cmds at hc
    rcases List.mem_append.mp hc with hm | hm
    · rw [List.eq_of_mem_replicate hm]
      exact ⟨by decide, by decide⟩
    · rw [List.mem_singleton.mp hm]
      exact ⟨by decide, by decide⟩
  unfold Program.parse
  rw [h1, h2]
  rfl

/-- Positions 0 … 1023 of `grow_cmds` hold `>`. -/
theorem grow_cmds_get_right {k : Nat} (h : k < 1024) :
    grow_cmds[k]? = some Cmd.Right := by
  unfold grow_cmds
  rw [List.getElem?_append_left (by rw [List.length_replicate]; exact h)]
  rw [List.getElem?_replicate]
  simp [h]

/-- Position 1024 of `grow_cmds` holds `+`. -/
theorem grow_cmds_get_last : grow_cmds[1024]? = some Cmd.Inc := by
  unfold grow_cmds
  rw [List.getElem?_append_right (by rw [List.length_replicate])]
  rw [List.length_replicate]
  rfl

/-- For `k < 1024` a pure step takes `growState k` to `growState (k + 1)`:
the `>` at position `k` sees `ptr = k ≠ 1024 = length`, so the tape does not
grow and both indices advance. -/
theorem growState_step {k : Nat} (h : k < 1024) :
    (growState k).stepPure = StepResult.cont (growState (k + 1)) := by
  unfold Program.stepPure
  rw [step_eq_stepCmd ReadResult.eof WriteResult.ok
    (show (growState k).cmds[(growState k).pc]? = some Cmd.Right from
      grow_cmds_get_right h)]
  have hne : k ≠ (List.replicate 1024 (0 : Nat)).length := by
    rw [List.length_replicate]
    omega
  simp only [stepCmd, growState]
  rw [if_neg hne]

/-- At `growState 1024` the instruction is `+` but the pointer equals the
tape length, so the cell read indexes out of bounds: a panic. -/
theorem growState_crash : (growState 1024).stepPure = StepResult.crash := by
  unfold Program.stepPure
  rw [step_eq_stepCmd ReadResult.eof WriteResult.ok
    (show (growState 1024).cmds[(growState 1024).pc]? = some Cmd.Inc from
      grow_cmds_get_last)]
  have hd : (growState 1024).data[(growState 1024).ptr]? = none := by
    apply List.getElem?_eq_none_iff.mpr
    simp only [growState, List.length_replicate]
    omega
  simp only [stepCmd, hd]

/-- Running `j` pure steps from `growState k` (staying within the `>` block)
reaches `growState (k + j)`. -/
theorem runFor_growState_cont :
    ∀ (j k : Nat), k + j ≤ 1024 →
      runFor (growState k) j = StepResult.cont (growState (k + j))
  | 0, k, _ => by simp [runFor]
  | j + 1, k, h => by
    have hs : (growState k).stepPure = StepResult.cont (growState (k + 1)) :=
      growState_step (by omega)
    have ih := runFor_growState_cont j (k + 1) (by omega)
    have harith : k + 1 + j = k + (j + 1) := by omega
    rw [runFor, hs]
    show runFor (growState (k + 1)) j = StepResult.cont (growState (k + (j + 1)))
    rw [ih, harith]

/-- C2 (refuted by the code).  The claimed in-bounds invariant fails on a
reachable state: the source of 1024 `>` bytes followed by `+` parses to
`growState 0` (the initial state: pointer 0, tape of 1024 zeros); 1024 step
calls reach `growState 1024`, where the instruction at the program counter is
`+` (which reads and writes the current cell) but the tape pointer equals the
tape length (1024), not strictly less; the very next step's tape indexing is
out of bounds — in the Rust source `self.data[self.ptr]` panics. -/
theorem reachable_cell_access_crashes :
    Program.parse grow_src = Except.ok (growState 0) ∧
    runFor (growState 0) 1024 = StepResult.cont (growState 1024) ∧
    (growState 1024).cmds[(growState 1024).pc]? = some Cmd.Inc ∧
    (growState 1024).ptr = (growState 1024).data.length ∧
    (growState 1024).stepPure = StepResult.crash := by
  refine ⟨parse_grow_src, ?_, grow_cmds_get_last, ?_, growState_crash⟩
  · have h := runFor_growState_cont 1024 0 (by omega)
    rwa [Nat.zero_add] at h
  · show (1024 : Nat) = (List.replicate 1024 (0 : Nat)).length
    rw [List.length_replicate]

/-- C1 counterexample.  In the run of the source of 1024 `>` bytes followed
by `+`, after 1023 steps the engine is about to execute `>` with the tape
pointer at the tape's current last valid index (1023 = 1024 - 1); that
`MoveRight` does not grow the tape: the length after the step is still 1024,
not 1024 + 1024. -/
theorem right_at_last_index_no_growth :
    runFor (growState 0) 1023 = StepResult.cont (growState 1023) ∧
    (growState 1023).cmds[(growState 1023).pc]? = some Cmd.Right ∧
    (growState 1023).ptr = (growState 1023).data.length - 1 ∧
    (growState 1023).stepPure = StepResult.cont (growState 1024) ∧
    (growState 1024).data.length = (growState 1023).data.length := by
  refine ⟨?_, @grow_cmds_get_right 1023 (by omega), ?_,
    @growState_step 1023 (by omega), rfl⟩
  · have h := runFor_growState_cont 1023 0 (by omega)
    rwa [Nat.zero_add] at h
  · show (1023 : Nat) = (List.replicate 1024 (0 : Nat)).length - 1
    rw [List.length_replicate]

/-- Witness for C10: stepping the empty program returns the state unchanged. -/
theorem step_frame_witness :
    haltProg.cmds = haltProg.cmds ∧ haltProg.loops = haltProg.loops ∧
      haltProg.data.length ≤ haltProg.data.length ∧
      (haltProg.data.length ≠ haltProg.data.length →
        haltProg.cmds[haltProg.pc]? = some Cmd.Right ∧
          haltProg.ptr = haltProg.data.length ∧
          haltProg.data = haltProg.data ++ List.replicate 1024 0) :=
  step_frame haltProg haltProg ReadResult.eof WriteResult.ok
    (Or.inr (Or.inl rfl))

/-- `lookupPos` on a cons cell. -/
theorem lookupPos_cons (a k b : Nat) (es : List (Nat × Nat)) :
    lookupPos a ((k, b) :: es) = if a = k then some b else lookupPos a es := rfl

/-- `lookupPos` after inserting both directions of a match, exactly as
`Program::parse` does. -/
theorem lookupPos_pair (a i s : Nat) (L : List (Nat × Nat)) :
    lookupPos a ((i, s) :: (s, i) :: L) =
      if a = i then some s else if a = s then some i else lookupPos a L := rfl

/-- The scan invariant holds initially: nothing processed, empty stack,
empty table. -/
theorem loopInv_init (cmds : List Cmd) : LoopInv cmds 0 [] [] where
  symm := fun a b h => by simp [lookupPos] at h
  keysLt := fun a b h => by simp [lookupPos] at h
  stLt := fun s h => by simp at h
  stNodup := List.nodup_nil
  stNotKey := fun s h => by simp at h
  covStart := fun k hk _ => by omega
  covEnd := fun k hk _ => by omega
  pairLoop := fun a b h => by simp [lookupPos] at h
  stStart := fun s h => by simp at h

/-- Processing a `[` at position `i`: push it on the stack. -/
theorem loopInv_push {cmds : List Cmd} {i : Nat} {st : List Nat}
    {L : List (Nat × Nat)} (inv : LoopInv cmds i st L)
    (hc : cmds[i]? = some Cmd.Start) : LoopInv cmds (i + 1) (i :: st) L where
  symm := inv.symm
  keysLt := fun a b h => Nat.lt_succ_of_lt (inv.keysLt a b h)
  stLt := by
    intro s hs
    rcases List.mem_cons.mp hs with rfl | hs
    · omega
    · exact Nat.lt_succ_of_lt (inv.stLt s hs)
  stNodup := by
    refine List.nodup_cons.mpr ⟨fun hmem => ?_, inv.stNodup⟩
    exact absurd (inv.stLt i hmem) (lt_irrefl i)
  stNotKey := by
    intro s hs
    rcases List.mem_cons.mp hs with rfl | hs
    · rcases hlk : lookupPos s L with _ | b
      · rfl
      · exact absurd (inv.keysLt s b hlk) (lt_irrefl s)
    · exact inv.stNotKey s hs
  covStart := by
    intro k hk hks
    rcases Nat.lt_succ_iff_lt_or_eq.mp hk with hk | rfl
    · rcases inv.covStart k hk hks with hmem | hsome
      · exact Or.inl (List.mem_cons_of_mem i hmem)
      · exact Or.inr hsome
    · exact Or.inl (List.mem_cons_self k st)
  covEnd := by
    intro k hk hke
    rcases Nat.lt_succ_iff_lt_or_eq.mp hk with hk | rfl
    · exact inv.covEnd k hk hke
    · rw [hc] at hke
      exact absurd (Option.some.inj hke) (by decide)
  pairLoop := inv.pairLoop
  stStart := by
    intro s hs
    rcases List.mem_cons.mp hs with rfl | hs
    · exact hc
    · exact inv.stStart s hs

/-- Processing a `]` at position `i` with pending `[` at `s`: pop the stack
and record both directions of the match. -/
theorem loopInv_pop {cmds : List Cmd} {i s : Nat} {st' : List Nat}
    {L : List (Nat × Nat)} (inv : LoopInv cmds i (s :: st') L)
    (hc : cmds[i]? = some Cmd.End) :
    LoopInv cmds (i + 1) st' ((i, s) :: (s, i) :: L) := by
  have hmem : s ∈ s :: st' := List.mem_cons_self s st'
  have hsi : s < i := inv.stLt s hmem
  have hstart : cmds[s]? = some Cmd.Start := inv.stStart s hmem
  have hkey : lookupPos s L = none := inv.stNotKey s hmem
  have hsnotin : s ∉ st' := (List.nodup_cons.mp inv.stNodup).1
  have hkeep : ∀ a b, lookupPos a L = some b →
      lookupPos a ((i, s) :: (s, i) :: L) = some b := by
    intro a b hab
    have hai : a ≠ i := by
      have := inv.keysLt a b hab
      omega
    have has : a ≠ s := by
      intro he
      rw [he, hkey] at hab
      exact Option.noConfusion hab
    rw [lookupPos_pair, if_neg hai, if_neg has]
    exact hab
  refine ⟨?_, ?_, ?_, ?_, ?_, ?_, ?_, ?_, ?_⟩
  · -- symm
    intro a b hab
    rw [lookupPos_pair] at hab
    by_cases hai : a = i
    · rw [if_pos hai] at hab
      obtain rfl : s = b := Option.some.inj hab
      rw [lookupPos_pair, if_neg (by omega), if_pos rfl, hai]
    · rw [if_neg hai] at hab
      by_cases has : a = s
      · rw [if_pos has] at hab
        obtain rfl : i = b := Option.some.inj hab
        rw [lookupPos_pair, if_pos rfl, has]
      · rw [if_neg has] at hab
        exact hkeep b a (inv.symm a b hab)
  · -- keysLt
    intro a b hab
    rw [lookupPos_pair] at hab
    by_cases hai : a = i
    · omega
    · rw [if_neg hai] at hab
      by_cases has : a = s
      · omega
      · rw [if_neg has] at hab
        have := inv.keysLt a b hab
        omega
  · -- stLt
    intro s' hs'
    have := inv.stLt s' (List.mem_cons_of_mem s hs')
    omega
  · -- stNodup
    exact (List.nodup_cons.mp inv.stNodup).2
  · -- stNotKey
    intro s' hs'
    have h1 : s' < i := inv.stLt s' (List.mem_cons_of_mem s hs')
    have h2 : s' ≠ s := fun he => hsnotin (he ▸ hs')
    rw [lookupPos_pair, if_neg (by omega), if_neg h2]
    exact inv.stNotKey s' (List.mem_cons_of_mem s hs')
  · -- covStart
    intro k hk hks
    rcases Nat.lt_succ_iff_lt_or_eq.mp hk with hk | rfl
    · rcases inv.covStart k hk hks with hmem' | hsome
      · rcases List.mem_cons.mp hmem' with rfl | hmem'
        · right
          rw [lookupPos_pair, if_neg (by omega), if_pos rfl]
          rfl
        · exact Or.inl hmem'
      · obtain ⟨b, hb⟩ := Option.isSome_iff_exists.mp hsome
        right
        rw [hkeep k b hb]
        rfl
    · rw [hc] at hks
      exact absurd (Option.some.inj hks) (by decide)
  · -- covEnd
    intro k hk hke
    rcases Nat.lt_succ_iff_lt_or_eq.mp hk with hk | rfl
    · obtain ⟨b, hb⟩ := Option.isSome_iff_exists.mp (inv.covEnd k hk hke)
      rw [hkeep k b hb]
      rfl
    · rw [lookupPos_pair, if_pos rfl]
      rfl
  · -- pairLoop
    intro a b hab
    rw [lookupPos_pair] at hab
    by_cases hai : a = i
    · rw [if_pos hai] at hab
      obtain rfl : s = b := Option.some.inj hab
      rw [hai]
      exact Or.inr ⟨hc, hstart⟩
    · rw [if_neg hai] at hab
      by_cases has : a = s
      · rw [if_pos has] at hab
        obtain rfl : i = b := Option.some.inj hab
        rw [has]
        exact Or.inl ⟨hstart, hc⟩
      · rw [if_neg has] at hab
        exact inv.pairLoop a b hab
  · -- stStart
    intro s' hs'
    exact inv.stStart s' (List.mem_cons_of_mem s hs')

/-- Processing a non-bracket command at position `i`: nothing changes. -/
theorem loopInv_skip {cmds : List Cmd} {i : Nat} {st : List Nat}
    {L : List (Nat × Nat)} (inv : LoopInv cmds i st L) {c : Cmd}
    (hc : cmds[i]? = some c) (hS : c ≠ Cmd.Start) (hE : c ≠ Cmd.End) :
    LoopInv cmds (i + 1) st L where
  symm := inv.symm
  keysLt := fun a b h => Nat.lt_succ_of_lt (inv.keysLt a b h)
  stLt := fun s hs => Nat.lt_succ_of_lt (inv.stLt s hs)
  stNodup := inv.stNodup
  stNotKey := inv.stNotKey
  covStart := by
    intro k hk hks
    rcases Nat.lt_succ_iff_lt_or_eq.mp hk with hk | rfl
    · exact inv.covStart k hk hks
    · rw [hc] at hks
      exact absurd (Option.some.inj hks) hS
  covEnd := by
    intro k hk hke
    rcases Nat.lt_succ_iff_lt_or_eq.mp hk with hk | rfl
    · exact inv.covEnd k hk hke
    · rw [hc] at hke
      exact absurd (Option.some.inj hke) hE
  pairLoop := inv.pairLoop
  stStart := inv.stStart

/-- Scanning from any invariant-respecting intermediate state, a successful
`buildLoops` yields a table that is total on the bracket positions of `cmds`,
symmetric, and joins only `[` positions with `]` positions. -/
theorem buildLoops_ok_inv (cmds : List Cmd) (l : List Cmd) :
    ∀ (i : Nat) (st : List Nat) (L L' : List (Nat × Nat)),
      buildLoops l i st L = Except.ok L' →
      (∀ k, l[k]? = cmds[i + k]?) →
      LoopInv cmds i st L →
      (∀ a, (cmds[a]? = some Cmd.Start ∨ cmds[a]? = some Cmd.End) →
        ∃ b, lookupPos a L' = some b) ∧
      (∀ a b, lookupPos a L' = some b → lookupPos b L' = some a) ∧
      (∀ a b, lookupPos a L' = some b →
        (cmds[a]? = some Cmd.Start ∧ cmds[b]? = some Cmd.End) ∨
        (cmds[a]? = some Cmd.End ∧ cmds[b]? = some Cmd.Start)) := by
  induction l with
  | nil =>
    intro i st L L' h align inv
    have hst : st = [] := by
      rcases st with _ | ⟨s, st'⟩
      · rfl
      · simp [buildLoops] at h
    subst hst
    simp only [buildLoops, List.isEmpty_nil, if_true, Except.ok.injEq] at h
    subst h
    have hlt : ∀ (a : Nat) (c : Cmd), cmds[a]? = some c → a < i := by
      intro a c hac
      by_contra hge
      have h2 := align (a - i)
      rw [List.getElem?_nil] at h2
      have he : i + (a - i) = a := by omega
      rw [he, hac] at h2
      exact Option.noConfusion h2
    refine ⟨?_, inv.symm, inv.pairLoop⟩
    intro a ha
    rcases ha with ha | ha
    · rcases inv.covStart a (hlt a _ ha) ha with hmem | hsome
      · simp at hmem
      · exact Option.isSome_iff_exists.mp hsome
    · exact Option.isSome_iff_exists.mp (inv.covEnd a (hlt a _ ha) ha)
  | cons c rest ih =>
    intro i st L L' h align inv
    have hc0 : cmds[i]? = some c := by
      have h0 := align 0
      rw [Nat.add_zero] at h0
      simpa using h0.symm
    have alignRest : ∀ k, rest[k]? = cmds[i + 1 + k]? := by
      intro k
      have hk := align (k + 1)
      rw [List.getElem?_cons_succ] at hk
      have he : i + (k + 1) = i + 1 + k := by omega
      rwa [he] at hk
    by_cases hS : c = Cmd.Start
    · subst hS
      have hred : buildLoops (Cmd.Start :: rest) i st L =
          buildLoops rest (i + 1) (i :: st) L := by
        simp [buildLoops]
      rw [hred] at h
      exact ih (i + 1) (i :: st) L L' h alignRest (loopInv_push inv hc0)
    · by_cases hE : c = Cmd.End
      · subst hE
        rcases st with _ | ⟨s, st'⟩
        · have hred : buildLoops (Cmd.End :: rest) i [] L =
              Except.error ParseError.unmatchedClose := by
            simp [buildLoops]
          rw [hred] at h
          exact Except.noConfusion h
        · have hred : buildLoops (Cmd.End :: rest) i (s :: st') L =
              buildLoops rest (i + 1) st' ((i, s) :: (s, i) :: L) := by
            simp [buildLoops]
          rw [hred] at h
          exact ih (i + 1) st' ((i, s) :: (s, i) :: L) L' h alignRest
            (loopInv_pop inv hc0)
      · have hred : buildLoops (c :: rest) i st L =
            buildLoops rest (i + 1) st L := by
          simp [buildLoops, hS, hE]
        rw [hred] at h
        exact ih (i + 1) st L L' h alignRest (loopInv_skip inv hc0 hS hE)

/-- C5.  For every source the parser accepts, the jump table is total on the
loop instructions and symmetric: every `[` position and every `]` position
has an entry (and, the table being a key-value map, exactly one); whenever
`jump(a) = b` then `jump(b) = a`, and every recorded pair joins a `[`
position to a `]` position.  In particular the `self.loops[&self.pc]` lookup
performed by `step` at a loop instruction can never miss. -/
theorem parse_jump_table_total_symm (code : List Nat) (p : Program)
    (h : Program.parse code = Except.ok p) :
    (∀ a, (p.cmds[a]? = some Cmd.Start ∨ p.cmds[a]? = some Cmd.End) →
      ∃ b, lookupPos a p.loops = some b) ∧
    (∀ a b, lookupPos a p.loops = some b → lookupPos b p.loops = some a) ∧
    (∀ a b, lookupPos a p.loops = some b →
      (p.cmds[a]? = some Cmd.Start ∧ p.cmds[b]? = some Cmd.End) ∨
      (p.cmds[a]? = some Cmd.End ∧ p.cmds[b]? = some Cmd.Start)) := by
  unfold Program.parse at h
  rcases hb : buildLoops (code.filterMap Cmd.from_byte) 0 [] [] with e | L'
  · rw [hb] at h
    exact Except.noConfusion h
  · rw [hb] at h
    have hp : p = { cmds := code.filterMap Cmd.from_byte
                    data := List.replicate 1024 0
                    pc := 0
                    ptr := 0
                    loops := L' } := (Except.ok.inj h).symm
    subst hp
    exact buildLoops_ok_inv (code.filterMap Cmd.from_byte)
      (code.filterMap Cmd.from_byte) 0 [] [] L' hb
      (fun k => by rw [Nat.zero_add])
      (loopInv_init (code.filterMap Cmd.from_byte))

/-- Witness for C5: the source `"[]"` (bytes 91, 93) parses to
`sampleLoopProg`; the jump table maps position 0 to 1, and symmetry recovers
the reverse entry 1 ↦ 0. -/
theorem parse_jump_table_total_symm_witness :
    lookupPos 1 sampleLoopProg.loops = some 0 ∧
    (∃ b, lookupPos 0 sampleLoopProg.loops = some b) :=
  ⟨(parse_jump_table_total_symm [91, 93] sampleLoopProg rfl).2.1 0 1 rfl,
   (parse_jump_table_total_symm [91, 93] sampleLoopProg rfl).1 0 (Or.inl rfl)⟩

/-- If some prefix of the remaining commands contains more `]` than `[` plus
the pending-stack size, the scan fails with `unmatched ]`. -/
theorem buildLoops_unmatched_close (l : List Cmd) :
    ∀ (i : Nat) (st : List Nat) (L : List (Nat × Nat)),
      (∃ k, k ≤ l.length ∧
        (l.take k).count Cmd.Start + st.length < (l.take k).count Cmd.End) →
      buildLoops l i st L = Except.error ParseError.unmatchedClose := by
  induction l with
  | nil =>
    intro i st L hex
    obtain ⟨k, _, hcnt⟩ := hex
    simp at hcnt
  | cons c rest ih =>
    intro i st L hex
    obtain ⟨k, hk, hcnt⟩ := hex
    rcases k with _ | k'
    · simp at hcnt
    · rw [List.take_succ_cons] at hcnt
      have hk' : k' ≤ rest.length := by
        simp only [List.length_cons] at hk
        omega
      by_cases hS : c = Cmd.Start
      · subst hS
        have hred : buildLoops (Cmd.Start :: rest) i st L =
            buildLoops rest (i + 1) (i :: st) L := by
          simp [buildLoops]
        rw [hred]
        refine ih (i + 1) (i :: st) L ⟨k', hk', ?_⟩
        rw [List.count_cons_self,
          List.count_cons_of_ne (by decide : Cmd.End ≠ Cmd.Start)] at hcnt
        simp only [List.length_cons]
        omega
      · by_cases hE : c = Cmd.End
        · subst hE
          rcases st with _ | ⟨s, st'⟩
          · simp [buildLoops]
          · have hred : buildLoops (Cmd.End :: rest) i (s :: st') L =
                buildLoops rest (i + 1) st' ((i, s) :: (s, i) :: L) := by
              simp [buildLoops]
            rw [hred]
            refine ih (i + 1) st' ((i, s) :: (s, i) :: L) ⟨k', hk', ?_⟩
            rw [List.count_cons_of_ne (by decide : Cmd.Start ≠ Cmd.End),
              List.count_cons_self] at hcnt
            simp only [List.length_cons] at hcnt
            omega
        · have hred : buildLoops (c :: rest) i st L =
              buildLoops rest (i + 1) st L := by
            simp [buildLoops, hS, hE]
          rw [hred]
          refine ih (i + 1) st L ⟨k', hk', ?_⟩
          rw [List.count_cons_of_ne (Ne.symm hS), List.count_cons_of_ne (Ne.symm hE)] at hcnt
          exact hcnt

/-- If no prefix has an excess of `]` but `[`s (plus the pending stack)
outnumber `]`s overall, the scan fails with `unmatched [`. -/
theorem buildLoops_unmatched_open (l : List Cmd) :
    ∀ (i : Nat) (st : List Nat) (L : List (Nat × Nat)),
      (∀ k, k ≤ l.length →
        (l.take k).count Cmd.End ≤ (l.take k).count Cmd.Start + st.length) →
      l.count Cmd.End < l.count Cmd.Start + st.length →
      buildLoops l i st L = Except.error ParseError.unmatchedOpen := by
  induction l with
  | nil =>
    intro i st L _ htot
    rcases st with _ | ⟨s, st'⟩
    · simp at htot
    · simp [buildLoops]
  | cons c rest ih =>
    intro i st L hpre htot
    have hpre1 : ∀ k, k ≤ rest.length →
        ((c :: rest).take (k + 1)).count Cmd.End ≤
        ((c :: rest).take (k + 1)).count Cmd.Start + st.length := by
      intro k hkle
      refine hpre (k + 1) ?_
      simp only [List.length_cons]
      omega
    by_cases hS : c = Cmd.Start
    · subst hS
      have hred : buildLoops (Cmd.Start :: rest) i st L =
          buildLoops rest (i + 1) (i :: st) L := by
        simp [buildLoops]
      rw [hred]
      refine ih (i + 1) (i :: st) L ?_ ?_
      · intro k hkle
        have h1 := hpre1 k hkle
        rw [List.take_succ_cons, List.count_cons_self,
          List.count_cons_of_ne (by decide : Cmd.End ≠ Cmd.Start)] at h1
        simp only [List.length_cons]
        omega
      · rw [List.count_cons_self,
          List.count_cons_of_ne (by decide : Cmd.End ≠ Cmd.Start)] at htot
        simp only [List.length_cons]
        omega
    · by_cases hE : c = Cmd.End
      · subst hE
        rcases st with _ | ⟨s, st'⟩
        · exfalso
          have h1 := hpre 1 (by simp only [List.length_cons]; omega)
          rw [List.take_succ_cons, List.take_zero] at h1
          simp [List.count_cons] at h1
        · have hred : buildLoops (Cmd.End :: rest) i (s :: st') L =
              buildLoops rest (i + 1) st' ((i, s) :: (s, i) :: L) := by
            simp [buildLoops]
          rw [hred]
          refine ih (i + 1) st' ((i, s) :: (s, i) :: L) ?_ ?_
          · intro k hkle
            have h1 := hpre1 k hkle
            rw [List.take_succ_cons,
              List.count_cons_of_ne (by decide : Cmd.Start ≠ Cmd.End),
              List.count_cons_self] at h1
            simp only [List.length_cons] at h1
            omega
          · rw [List.count_cons_of_ne (by decide : Cmd.Start ≠ Cmd.End),
              List.count_cons_self] at htot
            simp only [List.length_cons] at htot
            omega
      · have hred : buildLoops (c :: rest) i st L =
            buildLoops rest (i + 1) st L := by
          simp [buildLoops, hS, hE]
        rw [hred]
        refine ih (i + 1) st L ?_ ?_
        · intro k hkle
          have h1 := hpre1 k hkle
          rw [List.take_succ_cons, List.count_cons_of_ne (Ne.symm hS),
            List.count_cons_of_ne (Ne.symm hE)] at h1
          exact h1
        · rw [List.count_cons_of_ne (Ne.symm hS), List.count_cons_of_ne (Ne.symm hE)] at htot
          exact htot

/-- C6.  Characterisation of the two parse errors, on the instruction
sequence the source filters to: if some prefix contains more `]` than `[`
(i.e. some `]` has no preceding unmatched `[`), parsing fails with
`unmatched ]`; if no prefix does but `[`s strictly outnumber `]`s overall
(i.e. some `[` is never closed), parsing fails with `unmatched [`.  In both
cases `parse` returns an error, so no `Program` is ever constructed and
execution never begins. -/
theorem parse_unmatched_errors (code : List Nat) :
    ((∃ k, k ≤ (code.filterMap Cmd.from_byte).length ∧
        ((code.filterMap Cmd.from_byte).take k).count Cmd.Start <
        ((code.filterMap Cmd.from_byte).take k).count Cmd.End) →
      Program.parse code = Except.error ParseError.unmatchedClose) ∧
    ((∀ k, k ≤ (code.filterMap Cmd.from_byte).length →
        ((code.filterMap Cmd.from_byte).take k).count Cmd.End ≤
        ((code.filterMap Cmd.from_byte).take k).count Cmd.Start) →
      (code.filterMap Cmd.from_byte).count Cmd.End <
        (code.filterMap Cmd.from_byte).count Cmd.Start →
      Program.parse code = Except.error ParseError.unmatchedOpen) := by
  constructor
  · intro hex
    obtain ⟨k, hk, hcnt⟩ := hex
    have hb := buildLoops_unmatched_close (code.filterMap Cmd.from_byte) 0 [] []
      ⟨k, hk, by simpa using hcnt⟩
    unfold Program.parse
    rw [hb]
  · intro hpre htot
    have hb := buildLoops_unmatched_open (code.filterMap Cmd.from_byte) 0 [] []
      (fun k hkle => by simpa using hpre k hkle) (by simpa using htot)
    unfold Program.parse
    rw [hb]

/-- Witness for C6: the one-byte source `"]"` fails with `unmatched ]` and
the one-byte source `"["` fails with `unmatched [`. -/
theorem parse_unmatched_errors_witness :
    Program.parse [93] = Except.error ParseError.unmatchedClose ∧
    Program.parse [91] = Except.error ParseError.unmatchedOpen :=
  ⟨(parse_unmatched_errors [93]).1 ⟨1, by decide, by decide⟩,
   (parse_unmatched_errors [91]).2 (by decide) (by decide)⟩
